import Mathlib

/-!
Shallow embedding of the worktree lifecycle orchestrator `agent-manager`
(source files `src/git.rs`, `src/main.rs`, `src/templates.rs`).

Strings are modelled by Lean `String` / `List Char`; filesystem paths by
strings with `/`-joining; every external effect (a git subprocess, a prompt,
a file write) is modelled by an explicit oracle field in an environment
structure, and the sequence of issued commands is returned as a trace.
-/

namespace AgentManager

/-- Trim of a character list: drops whitespace from both ends, modelling
Rust `str::trim` (restricted to the ASCII whitespace Lean's
`Char.isWhitespace` recognises). -/
def trimChars (l : List Char) : List Char :=
  ((l.dropWhile Char.isWhitespace).reverse.dropWhile Char.isWhitespace).reverse

/-- String wrapper for `trimChars`. -/
def trimS (s : String) : String := String.mk (trimChars s.data)

/-- Models Rust `char::to_ascii_lowercase`: maps `A`-`Z` to `a`-`z`,
leaves every other character unchanged. -/
def asciiLower (c : Char) : Char :=
  if 'A' ≤ c ∧ c ≤ 'Z' then Char.ofNat (c.toNat + 32) else c

/-- Models Rust `char::is_ascii_alphanumeric`. -/
def isAsciiAlnum (c : Char) : Bool :=
  decide (('a' ≤ c ∧ c ≤ 'z') ∨ ('A' ≤ c ∧ c ≤ 'Z') ∨ ('0' ≤ c ∧ c ≤ '9'))

/-- The character-accumulation loop of `sanitize_name` (`src/main.rs`
lines 516-532): lower-cases, keeps alphanumerics and `-`/`_`, collapses
runs of anything else to a single `-`, tracking `last_dash`. -/
def sanitizeAux : List Char → Bool → List Char
  | [], _ => []
  | c :: rest, lastDash =>
    if isAsciiAlnum (asciiLower c) then asciiLower c :: sanitizeAux rest false
    else if asciiLower c = '-' ∨ asciiLower c = '_' then
      asciiLower c :: sanitizeAux rest (asciiLower c = '-')
    else if lastDash then sanitizeAux rest lastDash
    else '-' :: sanitizeAux rest true

/-- Dash test used by the trimming step. -/
def isDash (c : Char) : Bool := c = '-'

/-- Models Rust `str::trim_matches('-')`: strips `-` from both ends. -/
def trimDashes (l : List Char) : List Char :=
  ((l.dropWhile isDash).reverse.dropWhile isDash).reverse

/-- `sanitize_name` from `src/main.rs` lines 515-539: slugify free text,
falling back to the literal `feature` when nothing survives trimming. -/
def sanitize_name (input : String) : String :=
  if (trimDashes (sanitizeAux input.data false)).isEmpty then "feature"
  else String.mk (trimDashes (sanitizeAux input.data false))

/-- Membership in the slug alphabet `[a-z0-9_-]`. -/
def allowedChar (c : Char) : Bool :=
  decide (('a' ≤ c ∧ c ≤ 'z') ∨ ('0' ≤ c ∧ c ≤ '9') ∨ c = '-' ∨ c = '_')

/-- One record of `git worktree list --porcelain`, from `src/git.rs`
lines 15-20. -/
structure Worktree where
  path : String
  branch : Option String
  locked : Bool
deriving DecidableEq, Repr

/-- If `pat` is an initial segment of `l`, returns the remainder;
models Rust `str::strip_prefix`. -/
def matchPre : List Char → List Char → Option (List Char)
  | [], l => some l
  | _ :: _, [] => none
  | p :: ps, c :: cs => if p = c then matchPre ps cs else none

/-- Removes the first occurrence of `pat` from a character list; models
Rust `str::replacen(pat, "", 1)`. -/
def removeFirst (pat : List Char) : List Char → List Char
  | [] => []
  | c :: cs =>
    match matchPre pat (c :: cs) with
    | some rest => rest
    | none => c :: removeFirst pat cs

/-- Branch value extracted from a `branch ` porcelain line
(`src/git.rs` line 95): trim, then drop the first `refs/heads/`. -/
def branchValue (rest : List Char) : String :=
  String.mk (removeFirst "refs/heads/".data (trimChars rest))

/-- The per-line state transition of the porcelain parser
(`src/git.rs` lines 92-98), for a non-blank line: state is
(current path, current branch, locked). -/
def stepLine (st : Option String × Option String × Bool) (line : String) :
    Option String × Option String × Bool :=
  match matchPre "worktree ".data line.data with
  | some r => (some (String.mk r), st.2.1, st.2.2)
  | none =>
    match matchPre "branch ".data line.data with
    | some r => (st.1, some (branchValue r), st.2.2)
    | none =>
      match matchPre "locked".data line.data with
      | some _ => (st.1, st.2.1, true)
      | none => st

/-- The parsing loop of `list_worktrees` (`src/git.rs` lines 74-107):
on a blank line, flush the accumulated record if a path was seen
(`current_path.take()` always clears the path; branch and lock flag are
reset only in the flush branch); at end of input, flush any in-progress
record that has a path. -/
def parseLoop : List String → Option String × Option String × Bool → List Worktree
  | [], (cp, cb, lk) =>
    match cp with
    | some p => [⟨p, cb, lk⟩]
    | none => []
  | line :: rest, (cp, cb, lk) =>
    if line = "" then
      match cp with
      | some p => ⟨p, cb, lk⟩ :: parseLoop rest (none, none, false)
      | none => parseLoop rest (none, cb, lk)
    else parseLoop rest (stepLine (cp, cb, lk) line)

/-- `list_worktrees` (`src/git.rs` lines 65-110), modelled on the list of
stdout lines of `git worktree list --porcelain`. -/
def list_worktrees (lines : List String) : List Worktree :=
  parseLoop lines (none, none, false)

/-- `filtered_worktrees` (`src/main.rs` lines 493-499): drop the entry
whose path is the repository root. -/
def filtered_worktrees (root : String) (wts : List Worktree) : List Worktree :=
  wts.filter (fun wt => wt.path ≠ root)

/-- Folding the non-blank-line transition over the lines of one record. -/
def foldLines (st : Option String × Option String × Bool) (chunk : List String) :
    Option String × Option String × Bool :=
  chunk.foldl stepLine st

/-- Whether a porcelain line is a `worktree ` path line. -/
def isWtLine (line : String) : Bool :=
  (matchPre "worktree ".data line.data).isSome

/-- Renders a list of records (each a list of non-blank lines) as one
porcelain stream: records separated by blank lines, with no blank line
after the last record. -/
def joinRecords : List (List String) → List String
  | [] => []
  | [c] => c
  | c :: cs => c ++ "" :: joinRecords cs

/-! ## Template engine (`src/templates.rs`) -/

/-- The well-known rendered-template filename (`TEMPLATE_FILENAME`,
`src/templates.rs` line 15). -/
def templateFilename : List Char := ".agent-template".data

/-- Placeholder scanner for the regex `\$\x7b([^\x7d]+)\x7d` of
`render_template` (`src/templates.rs` line 100): returns the raw inner
texts of the leftmost non-overlapping matches, in order. The first
argument is `none` while looking for a `$`-brace opener and
`some acc` (reversed inner accumulator) while inside a candidate
placeholder; a candidate with an empty inner or no closing brace is not
a match, exactly as for the regex. -/
def scanGo : Option (List Char) → List Char → List (List Char)
  | none, [] => []
  | none, [_] => []
  | none, c :: d :: rest =>
    if c = '$' ∧ d = '{' then scanGo (some []) rest
    else scanGo none (d :: rest)
  | some _, [] => []
  | some acc, c :: cs =>
    if c = '}' then
      if acc = [] then scanGo none cs else acc.reverse :: scanGo none cs
    else scanGo (some (c :: acc)) cs

/-- All placeholder inner texts of a character list. -/
def scanPH (l : List Char) : List (List Char) := scanGo none l

/-- Association-list lookup, modelling `HashMap::get`/`contains_key`
(all maps in the source have distinct keys). -/
def lookupA : List (String × String) → String → Option String
  | [], _ => none
  | (k, v) :: rest, key => if k = key then some v else lookupA rest key

/-- The prompt-collection loop of `render_template` (`src/templates.rs`
lines 103-114): trim each captured key, skip empty keys, skip keys in the
automatic-variable map, and keep the first occurrence of each remaining
key. -/
def buildPrompts (auto : List (String × String)) :
    List (List Char) → List String → List String
  | [], acc => acc
  | inner :: rest, acc =>
    let name := String.mk (trimChars inner)
    if name = "" then buildPrompts auto rest acc
    else if (lookupA auto name).isSome then buildPrompts auto rest acc
    else if name ∈ acc then buildPrompts auto rest acc
    else buildPrompts auto rest (acc ++ [name])

/-- The substitution pass of `render_template` (`src/templates.rs`
lines 138-146, `Regex::replace_all`): each placeholder whose trimmed key
is in `values` is replaced by its value; any other placeholder, and all
unmatched text, is emitted verbatim.  Same mode convention as `scanGo`. -/
def replGo (values : List (String × String)) : Option (List Char) → List Char → List Char
  | none, [] => []
  | none, [c] => [c]
  | none, c :: d :: rest =>
    if c = '$' ∧ d = '{' then replGo values (some []) rest
    else c :: replGo values none (d :: rest)
  | some acc, [] => '$' :: '{' :: acc.reverse
  | some acc, c :: cs =>
    if c = '}' then
      if acc = [] then '$' :: '{' :: '}' :: replGo values none cs
      else
        match lookupA values (String.mk (trimChars acc.reverse)) with
        | some v => v.data ++ replGo values none cs
        | none => '$' :: '{' :: (acc.reverse ++ '}' :: replGo values none cs)
    else replGo values (some (c :: acc)) cs

/-- `render_template` (`src/templates.rs` lines 95-149).  The interactive
prompt loop is modelled by the positional answer list `answers`: the i-th
prompted key receives `answers[i]`.  Returns the rendered text together
with the list of keys that were prompted, in prompt order. -/
def render_template (content : String) (auto : List (String × String))
    (answers : List String) : String × List String :=
  if buildPrompts auto (scanPH content.data) [] = [] ∧ auto = [] then (content, [])
  else
    (String.mk (replGo
        (auto ++ (buildPrompts auto (scanPH content.data) []).zip answers)
        none content.data),
     buildPrompts auto (scanPH content.data) [])

/-- Spec-side qualification of a trimmed placeholder key for prompting:
non-blank and not an automatic variable. -/
def promptKey (auto : List (String × String)) (k : String) : Bool :=
  decide (k ≠ "") && (lookupA auto k).isNone

/-- Keeps the first occurrence of each distinct element, dropping later
duplicates; `seen` holds the elements already emitted. -/
def dedupFirstAux (seen : List String) : List String → List String
  | [] => []
  | k :: rest =>
    if k ∈ seen then dedupFirstAux seen rest
    else k :: dedupFirstAux (k :: seen) rest

/-- The spec's "once per distinct key, in first-occurrence order". -/
def dedupFirst (keys : List String) : List String := dedupFirstAux [] keys

/-- One segment of the placeholder decomposition of a template: a
literal output character, or one placeholder occurrence `$\x7binner\x7d`
with its raw (untrimmed, non-empty) inner text. -/
inductive Seg
  | lit (c : Char)
  | ph (inner : List Char)
deriving DecidableEq, Repr

/-- Spec-side decomposition of a template into literal characters and
placeholder occurrences, following the claim's reading of the regex
semantics: leftmost non-overlapping matches with non-empty inner text
and a closing brace; everything else is literal text. Independent of any
value map. Same mode convention as `scanGo`/`replGo`. -/
def segsGo : Option (List Char) → List Char → List Seg
  | none, [] => []
  | none, [c] => [Seg.lit c]
  | none, c :: d :: rest =>
    if c = '$' ∧ d = '{' then segsGo (some []) rest
    else Seg.lit c :: segsGo none (d :: rest)
  | some acc, [] => Seg.lit '$' :: Seg.lit '{' :: acc.reverse.map Seg.lit
  | some acc, c :: cs =>
    if c = '}' then
      if acc = [] then Seg.lit '$' :: Seg.lit '{' :: Seg.lit '}' :: segsGo none cs
      else Seg.ph acc.reverse :: segsGo none cs
    else segsGo (some (c :: acc)) cs

/-- Spec-side rendering of one segment: a placeholder whose trimmed key
resolves in `values` becomes its value; any other placeholder is
reproduced verbatim; literal characters pass through. -/
def renderSeg (values : List (String × String)) : Seg → List Char
  | Seg.lit c => [c]
  | Seg.ph inner =>
    match lookupA values (String.mk (trimChars inner)) with
    | some v => v.data
    | none => '$' :: '{' :: (inner ++ ['}'])

/-- Spec-side rendering of a segment list, substituting every
occurrence of every resolved key and keeping unresolved placeholders
verbatim. -/
def renderSegs (values : List (String × String)) : List Seg → List Char
  | [] => []
  | s :: rest => renderSeg values s ++ renderSegs values rest

/-- The raw inner texts of the placeholder occurrences of a segment
list, in order. -/
def segKeys : List Seg → List (List Char)
  | [] => []
  | Seg.lit _ :: rest => segKeys rest
  | Seg.ph inner :: rest => inner :: segKeys rest

/-- Line splitting of file content, modelling Rust `str::lines`
(a trailing newline does not produce an extra empty line). -/
def linesOf : List Char → List (List Char)
  | [] => []
  | c :: rest =>
    if c = '\n' then [] :: linesOf rest
    else
      match linesOf rest with
      | [] => [[c]]
      | l :: ls => (c :: l) :: ls

/-- The membership test of `ensure_template_ignored` (`src/templates.rs`
lines 196-200): a line counts as an existing entry if it trims to the
template filename or to its `./`-qualified form. -/
def entryLine (l : List Char) : Bool :=
  trimChars l = templateFilename ∨ trimChars l = "./.agent-template".data

/-- `ensure_template_ignored` (`src/templates.rs` lines 183-235) as a
pure transformation of the content of `.git/info/exclude`: if some line
already names the template file, leave the content unchanged; otherwise
append the filename plus newline, preceded by a newline when the existing
content is non-empty and does not already end in one. -/
def ensure_template_ignored (existing : List Char) : List Char :=
  if (linesOf existing).any entryLine then existing
  else
    existing
      ++ (if existing ≠ [] ∧ existing.getLast? ≠ some '\n' then ['\n'] else [])
      ++ templateFilename ++ ['\n']

/-- Number of exclude-file lines naming the template file. -/
def countEntry (content : List Char) : Nat :=
  (linesOf content).countP entryLine

/-! ## Git operations with effects (`src/git.rs`, `src/main.rs`) -/

/-- External commands issued by the orchestrator, in issue order. -/
inductive GitAct
  | checkout (branch : String)
  | merge (source : String) (noFF : Bool)
  | createWorktree (branch dir base : String)
  | removeWorktree (dir : String) (force : Bool)
  | deleteBranch (branch : String) (force : Bool)
  | ensureIgnored (worktree : String)
  | editTemplate (path : String)
  | runAgent (worktree branch template : String)
  | renderTemplate (source worktree : String)
deriving DecidableEq, Repr

/-- Oracle environment for `merge_branch`: the branch reported by
`current_branch`, which checkouts succeed, and whether the merge
command succeeds. -/
structure MergeEnv where
  current : Option String
  checkoutOk : String → Bool
  mergeOk : Bool

/-- `merge_branch` (`src/git.rs` lines 178-205): remember the current
branch; check out `target` when it differs; run `git merge --no-ff
source`; on merge failure return the error immediately; on success check
the original branch back out when it differed and was a named branch.
Returns the command trace and the overall outcome. -/
def merge_branch (env : MergeEnv) (source target : String) :
    List GitAct × Except Unit Unit :=
  if env.current = some target then
    let tr := [GitAct.merge source true]
    if env.mergeOk then (tr, .ok ()) else (tr, .error ())
  else
    if env.checkoutOk target then
      let tr := [GitAct.checkout target, GitAct.merge source true]
      if env.mergeOk then
        match env.current with
        | some b => (tr ++ [GitAct.checkout b],
            if env.checkoutOk b then .ok () else .error ())
        | none => (tr, .ok ())
      else (tr, .error ())
    else ([GitAct.checkout target], .error ())

/-- `current_branch` (`src/git.rs` lines 207-219): if `git rev-parse
--abbrev-ref HEAD` exits non-zero the result is `Ok(None)`; otherwise the
decoded stdout (`none` models invalid UTF-8, which is an error) is
trimmed, and a literal `HEAD` also yields `Ok(None)`. -/
def current_branch (exitOk : Bool) (decoded : Option String) :
    Except Unit (Option String) :=
  if exitOk = false then .ok none
  else
    match decoded with
    | none => .error ()
    | some s =>
      let t := trimS s
      if t = "HEAD" then .ok none else .ok (some t)

/-! ## Orchestrator flows (`src/main.rs`) -/

/-- Oracle environment for the creation part of `new_feature_flow`
(`src/main.rs` lines 88-150): the three interactive answers, the
resolved worktree base directory, and the outcomes of the filesystem and
git effects.  `template` is the outcome of `choose_template`;
`removeOk`/`deleteOk` are the outcomes of the two rollback commands. -/
structure FlowEnv where
  branchInput : String
  featureInput : String
  baseInput : String
  worktreeBase : String
  createDirOk : Bool
  dirExists : Bool
  createOk : Bool
  template : Option String
  removeOk : Bool
  deleteOk : Bool

/-- Non-error exits of the modelled flow fragment. -/
inductive FlowExit
  | emptyBranch
  | emptyFeature
  | noTemplate
  | proceeded (branch dir template : String)
deriving DecidableEq, Repr

/-- Error exits of the modelled flow fragment. -/
inductive FlowErr
  | dirCreateFailed
  | dirExists (dir : String)
  | worktreeCreateFailed
deriving DecidableEq, Repr

/-- `new_feature_flow` (`src/main.rs` lines 88-150), modelled through the
template decision: trim and validate the two text inputs, derive the
directory slug with `sanitize_name`, create the worktree for the raw
trimmed branch name, and on a missing template roll back with forced
worktree removal and forced branch deletion, discarding both outcomes
(`let _ = ...`) and exiting without error.  Later steps of the flow are
summarised by the `proceeded` exit. -/
def new_feature_flow (env : FlowEnv) : List GitAct × Except FlowErr FlowExit :=
  let branch := trimS env.branchInput
  if branch = "" then ([], .ok .emptyBranch)
  else if trimS env.featureInput = "" then ([], .ok .emptyFeature)
  else
    let slug := sanitize_name branch
    if env.createDirOk = false then ([], .error .dirCreateFailed)
    else
      let dir := env.worktreeBase ++ "/" ++ slug
      if env.dirExists then ([], .error (.dirExists dir))
      else if env.createOk = false then
        ([GitAct.createWorktree branch dir env.baseInput], .error .worktreeCreateFailed)
      else
        match env.template with
        | none =>
          ([GitAct.createWorktree branch dir env.baseInput,
            GitAct.removeWorktree dir true,
            GitAct.deleteBranch branch true], .ok .noTemplate)
        | some tpl =>
          ([GitAct.createWorktree branch dir env.baseInput], .ok (.proceeded branch dir tpl))

/-- Oracle environment for `start_existing_workflow` (`src/main.rs`
lines 307-346): the live worktree list, the repository root, the index
selected in the filtered list, whether the cached template file exists,
and the outcomes of the remaining effects. -/
structure ResumeEnv where
  worktrees : List Worktree
  rootPath : String
  selection : Option Nat
  cachedExists : Bool
  ignoreOk : Bool
  editChoice : Bool
  editOk : Bool
  agentOk : Bool

/-- Exits of the resume flow. -/
inductive ResumeExit
  | noWorktrees
  | noSelection
  | cachedMissing
  | agentDone
deriving DecidableEq, Repr

/-- `start_existing_workflow` (`src/main.rs` lines 307-346): list and
filter the worktrees, let the user pick one, abort reporting the missing
cached template when `<worktree>/.agent-template` does not exist,
otherwise register the exclude entry, optionally edit, and launch the
agent on the cached file (never re-rendering any template). An
out-of-range selection index is treated as no selection; the interactive
picker only produces in-range indices. -/
def start_existing_workflow (env : ResumeEnv) : List GitAct × Except Unit ResumeExit :=
  let wts := filtered_worktrees env.rootPath env.worktrees
  if wts = [] then ([], .ok .noWorktrees)
  else
    match env.selection with
    | none => ([], .ok .noSelection)
    | some idx =>
      match wts.get? idx with
      | none => ([], .ok .noSelection)
      | some wt =>
        let cached := wt.path ++ "/" ++ String.mk templateFilename
        if env.cachedExists = false then ([], .ok .cachedMissing)
        else if env.ignoreOk = false then ([GitAct.ensureIgnored wt.path], .error ())
        else
          let tr0 := [GitAct.ensureIgnored wt.path]
          let tr1 := tr0 ++ (if env.editChoice then [GitAct.editTemplate cached] else [])
          if env.editChoice ∧ env.editOk = false then (tr1, .error ())
          else
            let branch := wt.branch.getD "<detached>"
            (tr1 ++ [GitAct.runAgent wt.path branch cached],
             if env.agentOk then .ok .agentDone else .error ())

/-! ## Theorems -/

theorem asciiLower_of_upper (c : Char) (h : 'A' ≤ c ∧ c ≤ 'Z') :
    'a' ≤ asciiLower c ∧ asciiLower c ≤ 'z' := by
  obtain ⟨h1, h2⟩ := h
  have h1' : 65 ≤ c.toNat := h1
  have h2' : c.toNat ≤ 90 := h2
  have hv : (c.toNat + 32).isValidChar := by
    unfold Nat.isValidChar
    omega
  have hof : (Char.ofNat (c.toNat + 32)).toNat = c.toNat + 32 := by
    unfold Char.ofNat
    rw [dif_pos hv]
    rfl
  unfold asciiLower
  rw [if_pos ⟨h1, h2⟩]
  constructor
  · show 'a'.toNat ≤ (Char.ofNat (c.toNat + 32)).toNat
    rw [hof]
    have : 'a'.toNat = 97 := rfl
    omega
  · show (Char.ofNat (c.toNat + 32)).toNat ≤ 'z'.toNat
    rw [hof]
    have : 'z'.toNat = 122 := rfl
    omega

theorem asciiLower_of_not_upper (c : Char) (h : ¬('A' ≤ c ∧ c ≤ 'Z')) :
    asciiLower c = c := by
  unfold asciiLower
  rw [if_neg h]

theorem allowedChar_asciiLower (c : Char)
    (h : isAsciiAlnum (asciiLower c) = true) : allowedChar (asciiLower c) = true := by
  by_cases hu : 'A' ≤ c ∧ c ≤ 'Z'
  · have hl := asciiLower_of_upper c hu
    simp only [allowedChar, decide_eq_true_eq]
    exact Or.inl hl
  · rw [asciiLower_of_not_upper c hu] at h ⊢
    simp only [isAsciiAlnum, decide_eq_true_eq] at h
    simp only [allowedChar, decide_eq_true_eq]
    rcases h with h | h | h
    · exact Or.inl h
    · exact absurd h hu
    · exact Or.inr (Or.inl h)

theorem sanitizeAux_allowed (l : List Char) :
    ∀ b, ∀ c ∈ sanitizeAux l b, allowedChar c = true := by
  induction l with
  | nil => intro b c hc; simp [sanitizeAux] at hc
  | cons a t ih =>
    intro b c hc
    simp only [sanitizeAux] at hc
    by_cases h1 : isAsciiAlnum (asciiLower a) = true
    · rw [if_pos h1] at hc
      rcases List.mem_cons.mp hc with h | h
      · exact h ▸ allowedChar_asciiLower a h1
      · exact ih false c h
    · rw [if_neg h1] at hc
      by_cases h2 : asciiLower a = '-' ∨ asciiLower a = '_'
      · rw [if_pos h2] at hc
        rcases List.mem_cons.mp hc with h | h
        · subst h
          rcases h2 with h2 | h2 <;> rw [h2] <;> decide
        · exact ih _ c h
      · rw [if_neg h2] at hc
        by_cases h3 : b
        · rw [if_pos h3] at hc
          exact ih b c hc
        · rw [if_neg h3] at hc
          rcases List.mem_cons.mp hc with h | h
          · subst h; decide
          · exact ih true c h

theorem dropWhile_head_not (p : Char → Bool) (l : List Char) (c : Char)
    (h : (l.dropWhile p).head? = some c) : p c = false := by
  induction l with
  | nil => simp [List.dropWhile] at h
  | cons a t ih =>
    rw [List.dropWhile_cons] at h
    by_cases hp : p a = true
    · rw [if_pos hp] at h
      exact ih h
    · rw [if_neg hp] at h
      simp only [List.head?_cons, Option.some.injEq] at h
      subst h
      cases hb : p a
      · rfl
      · exact absurd hb hp

theorem trimDashes_decomp (l : List Char) :
    ∃ t, l.dropWhile isDash = trimDashes l ++ t := by
  refine ⟨((l.dropWhile isDash).reverse.takeWhile isDash).reverse, ?_⟩
  have huv := List.takeWhile_append_dropWhile isDash (l.dropWhile isDash).reverse
  have h2 := congrArg List.reverse huv
  rw [List.reverse_append, List.reverse_reverse] at h2
  unfold trimDashes
  exact h2.symm

theorem trimDashes_head (l : List Char) (c : Char)
    (h : (trimDashes l).head? = some c) : isDash c = false := by
  obtain ⟨t, ht⟩ := trimDashes_decomp l
  apply dropWhile_head_not isDash l c
  rw [ht]
  cases hr : trimDashes l with
  | nil => rw [hr] at h; simp at h
  | cons x xs =>
    rw [hr] at h
    simp only [List.head?_cons, Option.some.injEq] at h
    subst h
    simp

theorem trimDashes_getLast (l : List Char) (c : Char)
    (h : (trimDashes l).getLast? = some c) : isDash c = false := by
  have hrev : (trimDashes l).reverse.head? = some c := by
    rw [List.head?_reverse]
    exact h
  unfold trimDashes at hrev
  rw [List.reverse_reverse] at hrev
  exact dropWhile_head_not isDash _ c hrev

theorem mem_trimDashes (l : List Char) (c : Char) (h : c ∈ trimDashes l) : c ∈ l := by
  obtain ⟨t, ht⟩ := trimDashes_decomp l
  have : c ∈ l.dropWhile isDash := by
    rw [ht]
    exact List.mem_append_left t h
  exact (List.dropWhile_sublist isDash).subset this

theorem isAsciiAlnum_of_upper (c : Char) (h : 'A' ≤ c ∧ c ≤ 'Z') :
    isAsciiAlnum c = true := by
  simp only [isAsciiAlnum, decide_eq_true_eq]
  exact Or.inr (Or.inl h)

theorem sanitizeAux_all_dash (l : List Char)
    (h : ∀ c ∈ l, isAsciiAlnum c = false ∧ c ≠ '_') :
    ∀ b, ∀ c ∈ sanitizeAux l b, c = '-' := by
  induction l with
  | nil => intro b c hc; simp [sanitizeAux] at hc
  | cons a t ih =>
    intro b c hc
    obtain ⟨ha, ha'⟩ := h a (List.mem_cons_self a t)
    have hrest : ∀ c ∈ t, isAsciiAlnum c = false ∧ c ≠ '_' :=
      fun c hc => h c (List.mem_cons_of_mem a hc)
    have hnu : ¬('A' ≤ a ∧ a ≤ 'Z') := fun hu => by
      rw [isAsciiAlnum_of_upper a hu] at ha
      exact Bool.noConfusion ha
    have hla : asciiLower a = a := asciiLower_of_not_upper a hnu
    simp only [sanitizeAux, hla] at hc
    rw [if_neg (by simp [ha])] at hc
    by_cases h2 : a = '-' ∨ a = '_'
    · rw [if_pos h2] at hc
      have h2' : a = '-' := by
        rcases h2 with h2 | h2
        · exact h2
        · exact absurd h2 ha'
      rcases List.mem_cons.mp hc with hx | hx
      · rw [hx, h2']
      · exact ih hrest _ c hx
    · rw [if_neg h2] at hc
      by_cases h3 : b
      · rw [if_pos h3] at hc
        exact ih hrest b c hc
      · rw [if_neg h3] at hc
        rcases List.mem_cons.mp hc with hx | hx
        · exact hx
        · exact ih hrest true c hx

/-- C2 counterexample: the claimed biconditional "`sanitize` returns the
literal `feature` if and only if the input contains no alphanumeric, `-`,
or `_` character" fails in both directions on the code: the input `"-"`
contains `-` yet maps to `feature` (its slug trims to empty), and the
input `"feature"` contains alphanumerics yet also maps to `feature`. -/
theorem sanitize_feature_iff_fails :
    (sanitize_name "-" = "feature" ∧ '-' ∈ "-".data)
    ∧ (sanitize_name "feature" = "feature"
        ∧ 'f' ∈ "feature".data ∧ isAsciiAlnum 'f' = true) := by
  decide

/-- C2 (amended): `sanitize_name` is total by construction, produces only
characters from `[a-z0-9_-]`, never starts or ends with `-`, and returns
the literal `feature` whenever the input contains no alphanumeric or `_`
character (the presence of `-` characters alone cannot prevent the
fallback, and inputs whose slug is legitimately `feature` also return
it, so this implication is not a biconditional). -/
theorem sanitize_name_spec (s : String) :
    (∀ c ∈ (sanitize_name s).data, allowedChar c = true)
    ∧ (sanitize_name s).data.head? ≠ some '-'
    ∧ (sanitize_name s).data.getLast? ≠ some '-'
    ∧ ((∀ c ∈ s.data, isAsciiAlnum c = false ∧ c ≠ '_') → sanitize_name s = "feature") := by
  refine ⟨?_, ?_, ?_, ?_⟩
  · intro c hc
    unfold sanitize_name at hc
    by_cases he : (trimDashes (sanitizeAux s.data false)).isEmpty
    · rw [if_pos he] at hc
      have hf : ∀ x ∈ "feature".data, allowedChar x = true := by decide
      exact hf c hc
    · rw [if_neg he] at hc
      have hc' : c ∈ trimDashes (sanitizeAux s.data false) := hc
      exact sanitizeAux_allowed s.data false c (mem_trimDashes _ c hc')
  · unfold sanitize_name
    by_cases he : (trimDashes (sanitizeAux s.data false)).isEmpty
    · rw [if_pos he]
      decide
    · rw [if_neg he]
      intro h
      have := trimDashes_head (sanitizeAux s.data false) '-' h
      simp [isDash] at this
  · unfold sanitize_name
    by_cases he : (trimDashes (sanitizeAux s.data false)).isEmpty
    · rw [if_pos he]
      decide
    · rw [if_neg he]
      intro h
      have := trimDashes_getLast (sanitizeAux s.data false) '-' h
      simp [isDash] at this
  · intro h
    unfold sanitize_name
    have hall : ∀ c ∈ sanitizeAux s.data false, isDash c = true := by
      intro c hc
      have := sanitizeAux_all_dash s.data h false c hc
      rw [this]
      rfl
    have hnil : (sanitizeAux s.data false).dropWhile isDash = [] :=
      List.dropWhile_eq_nil_iff.mpr hall
    have htd : trimDashes (sanitizeAux s.data false) = [] := by
      unfold trimDashes
      rw [hnil]
      rfl
    rw [htd]
    rfl

/-- Witness for `sanitize_name_spec` at concrete inputs. -/
theorem sanitize_name_spec_witness : sanitize_name "!!" = "feature" :=
  (sanitize_name_spec "!!").2.2.2 (by decide)

/-- C1 counterexample: when the merge of `agent/x` into `main` fails
while the original branch `agent/x` differs from `main`, `merge_branch`
returns the error immediately and never checks the original branch back
out, refuting "checked back out afterward regardless of whether the
merge succeeded or failed". -/
theorem merge_branch_no_restore_on_failure :
    ((merge_branch ⟨some "agent/x", fun _ => true, false⟩ "agent/x" "main").1
        = [GitAct.checkout "main", GitAct.merge "agent/x" true])
    ∧ GitAct.checkout "agent/x"
        ∉ (merge_branch ⟨some "agent/x", fun _ => true, false⟩ "agent/x" "main").1
    ∧ (merge_branch ⟨some "agent/x", fun _ => true, false⟩ "agent/x" "main").2
        = Except.error () := by
  refine ⟨rfl, by decide, rfl⟩

/-- C1 (amended): `merge_branch` records the current branch, checks out
`target` first when the current branch differs, performs the merge
non-fast-forward, and checks the original branch back out only when the
merge succeeded (and the original was a named branch differing from
`target`); when the merge fails the call returns the error with the
target branch still checked out. -/
theorem merge_branch_spec (env : MergeEnv) (source target : String)
    (hck : env.checkoutOk target = true) :
    (merge_branch env source target).1 =
      (if env.current = some target then [] else [GitAct.checkout target])
        ++ [GitAct.merge source true]
        ++ (if env.mergeOk then
              (match env.current with
               | some b => if b = target then [] else [GitAct.checkout b]
               | none => [])
            else [])
    ∧ (env.mergeOk = false → (merge_branch env source target).2 = Except.error ()) := by
  rcases env with ⟨cur, cok, mok⟩
  have hck2 : cok target = true := hck
  by_cases h1 : cur = some target
  · subst h1
    cases mok <;> simp [merge_branch]
  · cases hc : cur with
    | none =>
      subst hc
      cases mok <;> simp [merge_branch, h1, hck2]
    | some b =>
      have hb : b ≠ target := fun e => h1 (by rw [hc, e])
      subst hc
      cases mok <;> simp [merge_branch, h1, hck2, hb]

/-- Witness for `merge_branch_spec`: on a successful merge from branch
`agent/x`, the trace is checkout, merge, checkout back. -/
theorem merge_branch_spec_witness :
    (merge_branch ⟨some "agent/x", fun _ => true, true⟩ "agent/x" "main").1
      = [GitAct.checkout "main", GitAct.merge "agent/x" true,
         GitAct.checkout "agent/x"] := by
  have h := (merge_branch_spec ⟨some "agent/x", fun _ => true, true⟩ "agent/x" "main" rfl).1
  rw [h]
  decide

/-- C10: `current_branch` never surfaces an error from a failed git
query: a non-zero exit yields `Ok(None)`, the same value produced for a
detached `HEAD`, making the two cases indistinguishable. -/
theorem current_branch_spec (decoded : Option String) (s : String)
    (h : trimS s = "HEAD") :
    current_branch false decoded = Except.ok none
    ∧ current_branch true (some s) = Except.ok none
    ∧ current_branch false decoded = current_branch true (some s) := by
  refine ⟨rfl, ?_, ?_⟩ <;> simp [current_branch, h]

/-- Witness for `current_branch_spec` at concrete inputs. -/
theorem current_branch_spec_witness :
    current_branch false (some "anything") = Except.ok none
    ∧ current_branch true (some " HEAD\n") = Except.ok none := by
  have h := current_branch_spec (some "anything") " HEAD\n" (by decide)
  exact ⟨h.1, h.2.1⟩

/-- C5: when no template is chosen after the worktree was created, the
flow issues a forced worktree removal followed by a forced branch
deletion and exits without error, for every outcome of the two rollback
commands (their results are discarded, so a rollback failure is
swallowed and never propagated). -/
theorem new_feature_rollback_spec (env : FlowEnv)
    (hb : trimS env.branchInput ≠ "") (hf : trimS env.featureInput ≠ "")
    (hcd : env.createDirOk = true) (hde : env.dirExists = false)
    (hco : env.createOk = true) (ht : env.template = none) :
    new_feature_flow env =
      ([GitAct.createWorktree (trimS env.branchInput)
          (env.worktreeBase ++ "/" ++ sanitize_name (trimS env.branchInput)) env.baseInput,
        GitAct.removeWorktree
          (env.worktreeBase ++ "/" ++ sanitize_name (trimS env.branchInput)) true,
        GitAct.deleteBranch (trimS env.branchInput) true],
       Except.ok FlowExit.noTemplate) := by
  simp [new_feature_flow, hb, hf, hcd, hde, hco, ht]

/-- Witness for `new_feature_rollback_spec` at a concrete environment,
with both rollback commands failing. -/
theorem new_feature_rollback_spec_witness :
    new_feature_flow
        ⟨" Agent/Fix Bug ", "f", "main", "/base", true, false, true, none, false, false⟩
      = ([GitAct.createWorktree "Agent/Fix Bug" "/base/agent-fix-bug" "main",
          GitAct.removeWorktree "/base/agent-fix-bug" true,
          GitAct.deleteBranch "Agent/Fix Bug" true],
         Except.ok FlowExit.noTemplate) := by
  have h := new_feature_rollback_spec
    ⟨" Agent/Fix Bug ", "f", "main", "/base", true, false, true, none, false, false⟩
    (by decide) (by decide) rfl rfl rfl rfl
  rw [h]
  rfl

/-- C9: in the new-feature flow the git branch is created from the raw
trimmed input while the worktree directory under the base is named by
`sanitize_name`; whenever the trimmed input differs from its slug the
two names differ, and the branch name may contain characters outside
`[a-z0-9_-]` (witnessed by `Agent/Fix Bug`, whose `/` is not in the slug
alphabet). -/
theorem branch_vs_slug_spec :
    (∀ env : FlowEnv, trimS env.branchInput ≠ "" → trimS env.featureInput ≠ "" →
      env.createDirOk = true → env.dirExists = false →
      (new_feature_flow env).1.head? =
        some (GitAct.createWorktree (trimS env.branchInput)
          (env.worktreeBase ++ "/" ++ sanitize_name (trimS env.branchInput)) env.baseInput))
    ∧ (trimS " Agent/Fix Bug " = "Agent/Fix Bug"
        ∧ sanitize_name "Agent/Fix Bug" = "agent-fix-bug"
        ∧ "Agent/Fix Bug" ≠ "agent-fix-bug"
        ∧ '/' ∈ "Agent/Fix Bug".data ∧ allowedChar '/' = false) := by
  constructor
  · intro env hb hf hcd hde
    cases hco : env.createOk <;> cases ht : env.template <;>
      simp [new_feature_flow, hb, hf, hcd, hde, hco, ht]
  · decide

/-- Witness for `branch_vs_slug_spec` at a concrete environment. -/
theorem branch_vs_slug_spec_witness :
    (new_feature_flow
        ⟨" Agent/Fix Bug ", "f", "main", "/base", true, false, false, none, true, true⟩).1.head?
      = some (GitAct.createWorktree "Agent/Fix Bug" "/base/agent-fix-bug" "main") := by
  have h := branch_vs_slug_spec.1
    ⟨" Agent/Fix Bug ", "f", "main", "/base", true, false, false, none, true, true⟩
    (by decide) (by decide) rfl rfl
  rw [h]
  decide

/-- C7: resuming an existing sandbox uses the template cached at the
well-known filename inside the selected worktree: when that file is
absent the flow stops with the cached-template-missing outcome (issuing
no command at all), and when it is present the agent is launched on the
cached file; in both cases no template is ever (re-)rendered. -/
theorem resume_cached_spec (env : ResumeEnv) (idx : Nat) (wt : Worktree)
    (hs : env.selection = some idx)
    (hg : (filtered_worktrees env.rootPath env.worktrees).get? idx = some wt) :
    (env.cachedExists = false →
      start_existing_workflow env = ([], Except.ok ResumeExit.cachedMissing))
    ∧ (env.cachedExists = true → env.ignoreOk = true →
        (env.editChoice = false ∨ env.editOk = true) →
        (start_existing_workflow env).1.getLast? =
          some (GitAct.runAgent wt.path (wt.branch.getD "<detached>")
            (wt.path ++ "/" ++ String.mk templateFilename)))
    ∧ (∀ s w, GitAct.renderTemplate s w ∉ (start_existing_workflow env).1) := by
  have hne : ¬(filtered_worktrees env.rootPath env.worktrees = []) := by
    intro e
    rw [e] at hg
    simp at hg
  have hg2 : (filtered_worktrees env.rootPath env.worktrees)[idx]? = some wt := by
    rw [← List.get?_eq_getElem?]
    exact hg
  cases hcached : env.cachedExists <;> cases hign : env.ignoreOk <;>
    cases hedit : env.editChoice <;> cases heok : env.editOk <;>
    cases hag : env.agentOk <;>
    simp [start_existing_workflow, hs, hg2, hcached, hign, hedit, heok, hag, hne]

/-- Witness for `resume_cached_spec`: a missing cached template aborts
the resume flow with the missing-template outcome. -/
theorem resume_cached_spec_witness :
    start_existing_workflow
        ⟨[⟨"/repo", some "main", false⟩, ⟨"/wt/a", some "agent/x", false⟩],
         "/repo", some 0, false, true, false, true, true⟩
      = ([], Except.ok ResumeExit.cachedMissing) :=
  (resume_cached_spec
    ⟨[⟨"/repo", some "main", false⟩, ⟨"/wt/a", some "agent/x", false⟩],
     "/repo", some 0, false, true, false, true, true⟩
    0 ⟨"/wt/a", some "agent/x", false⟩ rfl rfl).1 rfl

theorem buildPrompts_blank (auto : List (String × String)) :
    ∀ (inners : List (List Char)) (acc : List String),
      (∀ k ∈ inners, trimChars k = []) → buildPrompts auto inners acc = acc := by
  intro inners
  induction inners with
  | nil => intro acc _; rfl
  | cons inner rest ih =>
    intro acc h
    have h1 : String.mk (trimChars inner) = "" := by
      rw [h inner (List.mem_cons_self inner rest)]
    simp only [buildPrompts]
    rw [if_pos h1]
    exact ih acc fun k hk => h k (List.mem_cons_of_mem _ hk)

/-- C8: rendering a template whose placeholders all have blank keys
(in particular a template with no placeholders at all) with an empty
automatic-variable map returns the content unchanged and prompts for
nothing. -/
theorem render_identity_spec (content : String) (answers : List String)
    (h : ∀ k ∈ scanPH content.data, trimChars k = []) :
    render_template content [] answers = (content, []) := by
  unfold render_template
  rw [buildPrompts_blank [] (scanPH content.data) [] h]
  simp

/-- Witness for `render_identity_spec` on a placeholder-free template. -/
theorem render_identity_spec_witness :
    render_template "hello" [] [] = ("hello", []) :=
  render_identity_spec "hello" [] (by decide)

theorem buildPrompts_sound (auto : List (String × String)) :
    ∀ (inners : List (List Char)) (acc : List String), acc.Nodup →
      (buildPrompts auto inners acc).Nodup
      ∧ (∀ k ∈ buildPrompts auto inners acc,
          k ∈ acc ∨ (k ≠ "" ∧ lookupA auto k = none)) := by
  intro inners
  induction inners with
  | nil => intro acc h; exact ⟨h, fun k hk => Or.inl hk⟩
  | cons inner rest ih =>
    intro acc hacc
    simp only [buildPrompts]
    by_cases h1 : String.mk (trimChars inner) = ""
    · rw [if_pos h1]
      exact ih acc hacc
    · rw [if_neg h1]
      by_cases h2 : (lookupA auto (String.mk (trimChars inner))).isSome = true
      · rw [if_pos h2]
        exact ih acc hacc
      · rw [if_neg h2]
        by_cases h3 : String.mk (trimChars inner) ∈ acc
        · rw [if_pos h3]
          exact ih acc hacc
        · rw [if_neg h3]
          have hacc' : (acc ++ [String.mk (trimChars inner)]).Nodup := by
            rw [← List.concat_eq_append]
            exact List.Nodup.concat h3 hacc
          obtain ⟨hn, hm⟩ := ih _ hacc'
          refine ⟨hn, fun k hk => ?_⟩
          rcases hm k hk with hk' | hk'
          · rcases List.mem_append.mp hk' with ha | ha
            · exact Or.inl ha
            · have he : k = String.mk (trimChars inner) := by simpa using ha
              refine Or.inr ⟨?_, ?_⟩
              · rw [he]; exact h1
              · rw [he]
                exact Option.not_isSome_iff_eq_none.mp (by simpa using h2)
          · exact Or.inr hk'

theorem dedupFirstAux_congr :
    ∀ (keys : List String) (s1 s2 : List String), (∀ x, x ∈ s1 ↔ x ∈ s2) →
      dedupFirstAux s1 keys = dedupFirstAux s2 keys := by
  intro keys
  induction keys with
  | nil => intro s1 s2 _; rfl
  | cons k rest ih =>
    intro s1 s2 h
    simp only [dedupFirstAux]
    by_cases hk : k ∈ s1
    · rw [if_pos hk, if_pos ((h k).mp hk)]
      exact ih s1 s2 h
    · rw [if_neg hk, if_neg (fun hx => hk ((h k).mpr hx))]
      have h' : ∀ x, x ∈ k :: s1 ↔ x ∈ k :: s2 := by
        intro x
        simp [h x]
      rw [ih (k :: s1) (k :: s2) h']

theorem buildPrompts_eq_dedup (auto : List (String × String)) :
    ∀ (inners : List (List Char)) (acc : List String),
      buildPrompts auto inners acc
        = acc ++ dedupFirstAux acc
            ((inners.map fun inner => String.mk (trimChars inner)).filter (promptKey auto)) := by
  intro inners
  induction inners with
  | nil => intro acc; simp [buildPrompts, dedupFirstAux]
  | cons inner rest ih =>
    intro acc
    simp only [buildPrompts, List.map_cons, List.filter_cons]
    by_cases h1 : String.mk (trimChars inner) = ""
    · rw [if_pos h1]
      rw [if_neg (by simp [promptKey, h1])]
      exact ih acc
    · rw [if_neg h1]
      by_cases h2 : (lookupA auto (String.mk (trimChars inner))).isSome = true
      · rw [if_pos h2]
        have hq : promptKey auto (String.mk (trimChars inner)) = false := by
          cases hl : lookupA auto (String.mk (trimChars inner)) with
          | none => rw [hl] at h2; simp at h2
          | some v => simp [promptKey, hl]
        rw [if_neg (by simp [hq])]
        exact ih acc
      · rw [if_neg h2]
        have hq : promptKey auto (String.mk (trimChars inner)) = true := by
          simp [promptKey, h1, Option.not_isSome_iff_eq_none.mp h2]
        rw [if_pos hq]
        by_cases h3 : String.mk (trimChars inner) ∈ acc
        · rw [if_pos h3]
          have hd : dedupFirstAux acc (String.mk (trimChars inner)
                :: (rest.map fun inner => String.mk (trimChars inner)).filter (promptKey auto))
              = dedupFirstAux acc
                  ((rest.map fun inner => String.mk (trimChars inner)).filter (promptKey auto)) := by
            simp only [dedupFirstAux]
            rw [if_pos h3]
          rw [hd]
          exact ih acc
        · rw [if_neg h3]
          rw [ih (acc ++ [String.mk (trimChars inner)])]
          have hd : dedupFirstAux acc (String.mk (trimChars inner)
                :: (rest.map fun inner => String.mk (trimChars inner)).filter (promptKey auto))
              = String.mk (trimChars inner)
                  :: dedupFirstAux (String.mk (trimChars inner) :: acc)
                    ((rest.map fun inner => String.mk (trimChars inner)).filter (promptKey auto)) := by
            simp only [dedupFirstAux]
            rw [if_neg h3]
          rw [hd]
          rw [dedupFirstAux_congr
            ((rest.map fun inner => String.mk (trimChars inner)).filter (promptKey auto))
            (acc ++ [String.mk (trimChars inner)]) (String.mk (trimChars inner) :: acc)
            (by intro x; simp [or_comm])]
          simp

theorem renderSegs_map_lit (values : List (String × String)) :
    ∀ xs : List Char, renderSegs values (xs.map Seg.lit) = xs := by
  intro xs
  induction xs with
  | nil => rfl
  | cons c rest ih => simp [renderSegs, renderSeg, ih]

theorem segKeys_map_lit : ∀ xs : List Char, segKeys (xs.map Seg.lit) = [] := by
  intro xs
  induction xs with
  | nil => rfl
  | cons c rest ih => simp [segKeys, ih]

theorem replGo_eq_renderSegs (values : List (String × String)) :
    ∀ (mode : Option (List Char)) (l : List Char),
      replGo values mode l = renderSegs values (segsGo mode l) := by
  intro mode l
  induction mode, l using replGo.induct values
  case case4 c d rest h ih =>
    simp [replGo, segsGo, if_neg h, renderSegs, renderSeg, ih]
  case case5 acc =>
    have h5 : renderSegs values ((List.map Seg.lit acc).reverse) = acc.reverse := by
      rw [← List.map_reverse]
      exact renderSegs_map_lit values acc.reverse
    simp [replGo, segsGo, renderSegs, renderSeg, h5]
  all_goals simp_all [replGo, segsGo, renderSegs, renderSeg]

theorem scanGo_eq_segKeys :
    ∀ (mode : Option (List Char)) (l : List Char),
      scanGo mode l = segKeys (segsGo mode l) := by
  intro mode l
  induction mode, l using scanGo.induct
  case case4 c d rest h ih =>
    simp [scanGo, segsGo, if_neg h, segKeys, ih]
  case case5 acc =>
    have h5 : segKeys ((List.map Seg.lit acc).reverse) = [] := by
      rw [← List.map_reverse]
      exact segKeys_map_lit acc.reverse
    simp [scanGo, segsGo, segKeys, h5]
  all_goals simp_all [scanGo, segsGo, segKeys]

theorem renderSegs_empty :
    ∀ (mode : Option (List Char)) (l : List Char),
      renderSegs [] (segsGo mode l)
        = (match mode with
           | none => l
           | some acc => '$' :: '{' :: (acc.reverse ++ l)) := by
  intro mode l
  induction mode, l using segsGo.induct
  case case4 c d rest h ih =>
    simp [segsGo, if_neg h, renderSegs, renderSeg, ih]
  case case5 acc =>
    have h5 : renderSegs [] ((List.map Seg.lit acc).reverse) = acc.reverse := by
      rw [← List.map_reverse]
      exact renderSegs_map_lit [] acc.reverse
    simp [segsGo, renderSegs, renderSeg, h5]
  all_goals simp_all [segsGo, renderSegs, renderSeg, lookupA]

/-- C4: for every template content, automatic-variable map and answer
sequence: the prompted keys are exactly the distinct trimmed placeholder
keys that are non-blank and not automatic, each taken at its first
occurrence and in first-occurrence order (`dedupFirst` of the filtered
scanned keys); they are pairwise distinct, non-blank and non-automatic;
the output is the placeholder decomposition of the content — which is
independent of the value map — with every occurrence of every resolved
key (automatic and prompted alike) replaced by its value and every
placeholder whose key was never resolved left verbatim (`renderSegs` of
`segsGo`); the scanned keys are exactly the placeholder occurrences of
that decomposition; the decomposition reconstructs the content verbatim
when no key resolves; and the spec scenario with automatic
`feature = "Add login"` and prompted `who = "alice"` renders to
`"Task: Add login\nOwner: alice"`. -/
theorem render_template_spec :
    (∀ (content : String) (auto : List (String × String)) (answers : List String),
      (render_template content auto answers).2
        = dedupFirst (((scanPH content.data).map
            fun inner => String.mk (trimChars inner)).filter (promptKey auto)))
    ∧ (∀ (content : String) (auto : List (String × String)) (answers : List String),
      (render_template content auto answers).2.Nodup
      ∧ ∀ k ∈ (render_template content auto answers).2,
          k ≠ "" ∧ lookupA auto k = none)
    ∧ (∀ (content : String) (auto : List (String × String)) (answers : List String),
      (render_template content auto answers).1
        = String.mk (renderSegs
            (auto ++ (render_template content auto answers).2.zip answers)
            (segsGo none content.data)))
    ∧ (∀ l : List Char, scanPH l = segKeys (segsGo none l))
    ∧ (∀ l : List Char, renderSegs [] (segsGo none l) = l)
    ∧ render_template "Task: ${feature}\nOwner: ${who}" [("feature", "Add login")] ["alice"]
        = ("Task: Add login\nOwner: alice", ["who"]) := by
  refine ⟨?_, ?_, ?_, fun l => scanGo_eq_segKeys none l,
    fun l => renderSegs_empty none l, by decide⟩
  · intro content auto answers
    unfold render_template
    have hb := buildPrompts_eq_dedup auto (scanPH content.data) []
    rw [List.nil_append] at hb
    by_cases hif : buildPrompts auto (scanPH content.data) [] = [] ∧ auto = []
    · rw [if_pos hif]
      show [] = dedupFirst _
      unfold dedupFirst
      rw [← hb, hif.1]
    · rw [if_neg hif]
      exact hb
  · intro content auto answers
    unfold render_template
    by_cases hif : buildPrompts auto (scanPH content.data) [] = [] ∧ auto = []
    · rw [if_pos hif]
      exact ⟨List.nodup_nil, by simp⟩
    · rw [if_neg hif]
      obtain ⟨hn, hm⟩ := buildPrompts_sound auto (scanPH content.data) [] List.nodup_nil
      refine ⟨hn, fun k hk => ?_⟩
      rcases hm k hk with h | h
      · simp at h
      · exact h
  · intro content auto answers
    unfold render_template
    by_cases hif : buildPrompts auto (scanPH content.data) [] = [] ∧ auto = []
    · rw [if_pos hif]
      show content = String.mk (renderSegs (auto ++ List.zip [] answers) (segsGo none content.data))
      rw [hif.2]
      show content = String.mk (renderSegs [] (segsGo none content.data))
      rw [renderSegs_empty none content.data]
    · rw [if_neg hif]
      show String.mk (replGo _ none content.data) = _
      rw [replGo_eq_renderSegs]

/-- Witness for `render_template_spec` on the spec scenario. -/
theorem render_template_spec_witness :
    "who" ≠ "" ∧ lookupA [("feature", "Add login")] "who" = none := by
  have h := render_template_spec.2.1 "Task: ${feature}\nOwner: ${who}"
    [("feature", "Add login")] ["alice"]
  exact h.2 "who" (by decide)

theorem linesOf_ne_nil (l : List Char) (h : l ≠ []) : linesOf l ≠ [] := by
  cases l with
  | nil => exact absurd rfl h
  | cons c rest =>
    by_cases hc : c = '\n'
    · simp [linesOf, hc]
    · simp only [linesOf, if_neg hc]
      cases linesOf rest <;> simp

theorem linesOf_cons_nl (rest : List Char) :
    linesOf ('\n' :: rest) = [] :: linesOf rest := by
  simp [linesOf]

theorem linesOf_cons_other {c : Char} (hc : c ≠ '\n') (rest : List Char) :
    linesOf (c :: rest)
      = (match linesOf rest with
         | [] => [[c]]
         | l :: ls => (c :: l) :: ls) := by
  simp [linesOf, hc]

theorem linesOf_append_nl (a b : List Char) :
    linesOf (a ++ '\n' :: b) = linesOf (a ++ ['\n']) ++ linesOf b := by
  induction a with
  | nil => simp [linesOf]
  | cons c a' ih =>
    by_cases hc : c = '\n'
    · subst hc
      simp only [List.cons_append, linesOf_cons_nl, ih]
    · simp only [List.cons_append, linesOf_cons_other hc, ih]
      cases hl : linesOf (a' ++ ['\n']) with
      | nil => exact absurd hl (linesOf_ne_nil _ (by simp))
      | cons x xs => simp

theorem linesOf_snoc_nl :
    ∀ (a : List Char), a ≠ [] → a.getLast? ≠ some '\n' →
      linesOf (a ++ ['\n']) = linesOf a := by
  intro a
  induction a with
  | nil => intro h1 _; exact absurd rfl h1
  | cons c a' ih =>
    intro _ h2
    by_cases ha' : a' = []
    · subst ha'
      have hc : c ≠ '\n' := fun e => h2 (by rw [e]; rfl)
      simp [linesOf, hc]
    · have h2' : a'.getLast? ≠ some '\n' := by
        intro e
        apply h2
        rw [← e]
        cases a' with
        | nil => exact absurd rfl ha'
        | cons d t => exact List.getLast?_cons_cons
      have ihh := ih ha' h2'
      by_cases hc : c = '\n'
      · subst hc
        simp only [List.cons_append, linesOf_cons_nl, ihh]
      · simp only [List.cons_append, linesOf_cons_other hc, ihh]

theorem getLast_decomp (l : List Char) (c : Char) (h : l.getLast? = some c) :
    ∃ t, l = t ++ [c] := by
  have hne : l ≠ [] := by
    intro e
    rw [e] at h
    simp at h
  refine ⟨l.dropLast, ?_⟩
  have h2 := List.dropLast_append_getLast hne
  have h3 : l.getLast hne = c := by
    rw [List.getLast?_eq_getLast l hne] at h
    exact Option.some.inj h
  rw [← h3]
  exact h2.symm

theorem ensure_lines (existing : List Char)
    (h : (linesOf existing).any entryLine = false) :
    linesOf (ensure_template_ignored existing)
      = linesOf existing ++ [templateFilename] := by
  unfold ensure_template_ignored
  rw [if_neg (by simp [h])]
  by_cases he : existing = []
  · subst he
    rw [if_neg (by simp)]
    decide
  · have htf : linesOf (templateFilename ++ ['\n']) = [templateFilename] := by decide
    by_cases hnl : existing.getLast? = some '\n'
    · rw [if_neg (by simp [hnl])]
      obtain ⟨init, hinit⟩ := getLast_decomp existing '\n' hnl
      rw [hinit]
      simpa [htf] using linesOf_append_nl init (templateFilename ++ ['\n'])
    · rw [if_pos ⟨he, hnl⟩]
      have h1 := linesOf_append_nl existing (templateFilename ++ ['\n'])
      rw [linesOf_snoc_nl existing he hnl] at h1
      simpa [htf] using h1

theorem entryLine_templateFilename : entryLine templateFilename = true := by decide

theorem ensure_present (existing : List Char)
    (h : (linesOf existing).any entryLine = false) :
    (linesOf (ensure_template_ignored existing)).any entryLine = true := by
  rw [ensure_lines existing h, List.any_append]
  simp [entryLine_templateFilename]

/-- C6: registering the template filename in the exclude-file content is
idempotent (a second registration changes nothing); starting from
content without an entry, registering (once or twice) yields exactly one
entry line; the appended entry is preceded by a newline exactly when the
existing content is non-empty and does not already end in one. -/
theorem ensure_ignored_spec (existing : List Char) :
    ensure_template_ignored (ensure_template_ignored existing)
        = ensure_template_ignored existing
    ∧ ((linesOf existing).any entryLine = false →
        countEntry (ensure_template_ignored (ensure_template_ignored existing)) = 1)
    ∧ ((linesOf existing).any entryLine = false → existing ≠ [] →
        existing.getLast? ≠ some '\n' →
        ensure_template_ignored existing
          = existing ++ '\n' :: (templateFilename ++ ['\n']))
    ∧ ((linesOf existing).any entryLine = false →
        (existing = [] ∨ existing.getLast? = some '\n') →
        ensure_template_ignored existing = existing ++ templateFilename ++ ['\n']) := by
  have hidem : ensure_template_ignored (ensure_template_ignored existing)
      = ensure_template_ignored existing := by
    by_cases hp : (linesOf existing).any entryLine = true
    · have hee : ensure_template_ignored existing = existing := by
        unfold ensure_template_ignored
        rw [if_pos hp]
      rw [hee]
      exact hee
    · have hp' : (linesOf existing).any entryLine = false := by
        cases hq : (linesOf existing).any entryLine
        · rfl
        · exact absurd hq hp
      have hpres := ensure_present existing hp'
      conv_lhs => rw [ensure_template_ignored]
      rw [if_pos hpres]
  refine ⟨hidem, ?_, ?_, ?_⟩
  · intro h
    rw [hidem]
    unfold countEntry
    rw [ensure_lines existing h, List.countP_append]
    have hz : (linesOf existing).countP entryLine = 0 :=
      List.countP_eq_zero.mpr (List.any_eq_false.mp h)
    rw [hz]
    decide
  · intro h he hnl
    unfold ensure_template_ignored
    rw [if_neg (by simp [h]), if_pos ⟨he, hnl⟩]
    simp
  · intro h hor
    unfold ensure_template_ignored
    rw [if_neg (by simp [h])]
    rcases hor with he | hnl
    · rw [if_neg (by simp [he])]
      simp
    · rw [if_neg (by simp [hnl])]
      simp

/-- Witness for `ensure_ignored_spec`: a fresh exclude file holding one
unrelated entry ends up with exactly one template entry after two
registrations. -/
theorem ensure_ignored_spec_witness :
    countEntry (ensure_template_ignored
      (ensure_template_ignored "node_modules".data)) = 1 :=
  (ensure_ignored_spec "node_modules".data).2.1 (by decide)

theorem parseLoop_blank (rest : List String) (cp cb : Option String) (lk : Bool) :
    parseLoop ("" :: rest) (cp, cb, lk)
      = (match cp with
         | some p => ⟨p, cb, lk⟩ :: parseLoop rest (none, none, false)
         | none => parseLoop rest (none, cb, lk)) := by
  simp [parseLoop]

theorem parseLoop_nonblank (line : String) (hl : line ≠ "") (rest : List String)
    (st : Option String × Option String × Bool) :
    parseLoop (line :: rest) st = parseLoop rest (stepLine st line) := by
  rcases st with ⟨cp, cb, lk⟩
  simp [parseLoop, hl]

theorem parseLoop_chunk :
    ∀ (chunk : List String), (∀ l ∈ chunk, l ≠ "") →
    ∀ (st : Option String × Option String × Bool) (rest : List String),
      parseLoop (chunk ++ "" :: rest) st
        = (match (foldLines st chunk).1 with
           | some p => ⟨p, (foldLines st chunk).2.1, (foldLines st chunk).2.2⟩
               :: parseLoop rest (none, none, false)
           | none =>
               parseLoop rest (none, (foldLines st chunk).2.1, (foldLines st chunk).2.2)) := by
  intro chunk
  induction chunk with
  | nil =>
    intro _ st rest
    rcases st with ⟨cp, cb, lk⟩
    rw [List.nil_append, parseLoop_blank]
    rfl
  | cons line chunk' ih =>
    intro h st rest
    have hl : line ≠ "" := h line (List.mem_cons_self line chunk')
    rw [List.cons_append, parseLoop_nonblank line hl]
    rw [ih (fun l hl' => h l (List.mem_cons_of_mem _ hl')) (stepLine st line) rest]
    rfl

theorem parseLoop_final :
    ∀ (chunk : List String), (∀ l ∈ chunk, l ≠ "") →
    ∀ (st : Option String × Option String × Bool),
      parseLoop chunk st
        = (match (foldLines st chunk).1 with
           | some p => [⟨p, (foldLines st chunk).2.1, (foldLines st chunk).2.2⟩]
           | none => []) := by
  intro chunk
  induction chunk with
  | nil =>
    intro _ st
    rcases st with ⟨cp, cb, lk⟩
    cases cp <;> rfl
  | cons line chunk' ih =>
    intro h st
    have hl : line ≠ "" := h line (List.mem_cons_self line chunk')
    rw [parseLoop_nonblank line hl]
    rw [ih (fun l hl' => h l (List.mem_cons_of_mem _ hl'))]
    rfl

theorem stepLine_path_mono (st : Option String × Option String × Bool) (line : String)
    (h : st.1.isSome = true) : (stepLine st line).1.isSome = true := by
  rcases st with ⟨cp, cb, lk⟩
  unfold stepLine
  cases h1 : matchPre "worktree ".data line.data with
  | some r => rfl
  | none =>
    cases h2 : matchPre "branch ".data line.data with
    | some r => exact h
    | none =>
      cases h3 : matchPre "locked".data line.data with
      | some r => exact h
      | none => exact h

theorem stepLine_path_set (st : Option String × Option String × Bool) (line : String)
    (h : isWtLine line = true) : (stepLine st line).1.isSome = true := by
  rcases st with ⟨cp, cb, lk⟩
  unfold isWtLine at h
  unfold stepLine
  cases h1 : matchPre "worktree ".data line.data with
  | some r => rfl
  | none => rw [h1] at h; exact absurd h (by simp)

theorem foldLines_path :
    ∀ (chunk : List String) (st : Option String × Option String × Bool),
      (chunk.any isWtLine = true ∨ st.1.isSome = true) →
      (foldLines st chunk).1.isSome = true := by
  intro chunk
  induction chunk with
  | nil =>
    intro st h
    rcases h with h | h
    · simp at h
    · exact h
  | cons line rest ih =>
    intro st h
    have hstep : foldLines st (line :: rest) = foldLines (stepLine st line) rest := rfl
    rw [hstep]
    apply ih
    rcases h with h | h
    · rw [List.any_cons] at h
      rcases (Bool.or_eq_true _ _).mp h with h' | h'
      · exact Or.inr (stepLine_path_set st line h')
      · exact Or.inl h'
    · exact Or.inr (stepLine_path_mono st line h)

theorem records_length :
    ∀ (cs : List (List String)),
      (∀ c ∈ cs, ∀ l ∈ c, l ≠ "") → (∀ c ∈ cs, c.any isWtLine = true) →
      (parseLoop (joinRecords cs) (none, none, false)).length = cs.length := by
  intro cs
  induction cs with
  | nil => intro _ _; rfl
  | cons c cs' ih =>
    intro h1 h2
    have hc1 : ∀ l ∈ c, l ≠ "" := h1 c (List.mem_cons_self c cs')
    have hc2 : c.any isWtLine = true := h2 c (List.mem_cons_self c cs')
    have hp := foldLines_path c (none, none, false) (Or.inl hc2)
    cases cs' with
    | nil =>
      have hj : joinRecords [c] = c := rfl
      rw [hj, parseLoop_final c hc1 (none, none, false)]
      cases hf : (foldLines (none, none, false) c).1 with
      | none => rw [hf] at hp; exact absurd hp (by simp)
      | some p => rfl
    | cons c2 cs'' =>
      have hj : joinRecords (c :: c2 :: cs'') = c ++ "" :: joinRecords (c2 :: cs'') := rfl
      rw [hj, parseLoop_chunk c hc1 (none, none, false) (joinRecords (c2 :: cs''))]
      cases hf : (foldLines (none, none, false) c).1 with
      | none => rw [hf] at hp; exact absurd hp (by simp)
      | some p =>
        have hlen := ih (fun x hx => h1 x (List.mem_cons_of_mem _ hx))
          (fun x hx => h2 x (List.mem_cons_of_mem _ hx))
        simp [hlen]

/-- C3 counterexample: a record lacking a path is not "discarded
entirely", and the blank line does not reset "all accumulated state":
the branch accumulated before the blank line survives into the next
record, so `["branch refs/heads/x", "", "worktree /p"]` parses to a
record whose branch is `x`, where the claim requires branch `none`. -/
theorem parse_blank_line_no_full_reset :
    list_worktrees ["branch refs/heads/x", "", "worktree /p"]
        = [⟨"/p", some "x", false⟩]
    ∧ list_worktrees ["branch refs/heads/x", "", "worktree /p"]
        ≠ [⟨"/p", none, false⟩] := by
  decide

/-- C3 (amended): the parser accumulates a path, an optional branch
(`refs/heads/` stripped) and a lock flag; on a blank line it emits and
fully resets the record only when a path was accumulated (a pathless
record emits nothing, and its accumulated branch/lock state persists
into the following record); a stream of N records each containing a
path line, with no trailing blank line, parses to exactly N worktrees,
with the final in-progress record flushed at end of input; the
selectable-sandbox view excludes exactly the repository root. -/
theorem list_worktrees_spec :
    (∀ (cs : List (List String)),
      (∀ c ∈ cs, ∀ l ∈ c, l ≠ "") → (∀ c ∈ cs, c.any isWtLine = true) →
      (list_worktrees (joinRecords cs)).length = cs.length)
    ∧ (∀ (root : String) (wts : List Worktree) (w : Worktree),
        w ∈ filtered_worktrees root wts ↔ w ∈ wts ∧ w.path ≠ root)
    ∧ (list_worktrees ["worktree /repo", "branch refs/heads/main", "",
          "worktree /wt/a", "branch refs/heads/agent/x", "locked", "",
          "worktree /wt/b", "detached"]
        = [⟨"/repo", some "main", false⟩, ⟨"/wt/a", some "agent/x", true⟩,
           ⟨"/wt/b", none, false⟩])
    ∧ (filtered_worktrees "/repo"
          [⟨"/repo", some "main", false⟩, ⟨"/wt/a", some "agent/x", true⟩,
           ⟨"/wt/b", none, false⟩]
        = [⟨"/wt/a", some "agent/x", true⟩, ⟨"/wt/b", none, false⟩]) := by
  refine ⟨records_length, ?_, by decide, by decide⟩
  intro root wts w
  unfold filtered_worktrees
  rw [List.mem_filter]
  simp

/-- Witness for `list_worktrees_spec`: two one-line records with no
trailing blank line parse to exactly two worktrees. -/
theorem list_worktrees_spec_witness :
    (list_worktrees (joinRecords [["worktree /a"], ["worktree /b"]])).length = 2 :=
  list_worktrees_spec.1 [["worktree /a"], ["worktree /b"]] (by decide) (by decide)

end AgentManager
